import Mathlib

set_option maxRecDepth 100000

/-!
Verification of the MaxScale routing-worker core (`server/core/routingworker.cc`)
against its natural-language specification.  The development shallowly embeds
the per-worker parsed-statement cache (`QCInfoCache`), backend-connection
acquisition (`RoutingWorker::get_backend_connection`), the per-worker
connection pool (`RoutingWorker::ConnectionPool`, `move_to_conn_pool`),
zombie-descriptor destruction (`RoutingWorker::delete_zombies`), shutdown
(`try_shutdown`, `shutdown_complete`), session rebalancing
(`RoutingWorker::rebalance`), and statistics aggregation
(`RoutingWorker::get_statistics`).
-/

namespace MaxScale

/-! ## QCInfoCache (parsed-statement cache), routingworker.cc lines 2188-2466 -/

namespace QC

/-- One cache entry (`QCInfoCache::Entry`): the shared parse result is
modelled by an abstract handle `info` together with its reported byte size
`infoSize` (`pInfo->size()`, a `size_t`, hence a `Nat`), plus the version
tag (`sql_mode`, `options`) and the per-entry hit counter. -/
structure Entry where
  info : Nat
  infoSize : Nat
  sql_mode : Nat
  options : Nat
  hits : Int
deriving Repr, DecidableEq

/-- `QC_CACHE_STATS`: size, inserts, hits, misses, evictions (all `int64_t`). -/
structure Stats where
  size : Int
  inserts : Int
  hits : Int
  misses : Int
  evictions : Int
deriving Repr, DecidableEq

def Stats.zero : Stats := ⟨0, 0, 0, 0, 0⟩

/-- The cache state: `m_infos` (an `unordered_map` keyed by the canonical
statement, modelled as an association list with unique keys) and `m_stats`. -/
structure Cache where
  infos : List (String × Entry)
  stats : Stats
deriving Repr, DecidableEq

def Cache.empty : Cache := ⟨[], Stats.zero⟩

/-- `constexpr int64_t max_entry_size = 0xffffff - 5` (maximum packet size
minus header and command byte). -/
def max_entry_size : Int := 0xffffff - 5

/-- `constant_overhead = sizeof(std::string_view) + sizeof(Entry) +
4 * sizeof(void*)`; on an LP64 platform this is `16 + 40 + 32 = 88`. -/
def constant_overhead : Int := 88

/-- `QCInfoCache::entry_size`: accounted byte cost of an entry. -/
def entry_size (infoSize : Nat) : Int := constant_overhead + infoSize

/-- `m_infos.find(canonical_stmt)`: first entry stored under the key. -/
def findEntry (stmt : String) : List (String × Entry) → Option Entry
  | [] => none
  | kv :: rest => if kv.1 = stmt then some kv.2 else findEntry stmt rest

/-- `++entry.hits` on the entry found under `stmt`. -/
def updateHits (stmt : String) : List (String × Entry) → List (String × Entry)
  | [] => []
  | kv :: rest =>
    if kv.1 = stmt then (kv.1, { kv.2 with hits := kv.2.hits + 1 }) :: rest
    else kv :: updateHits stmt rest

/-- `m_infos.erase(i)` for the iterator found under `stmt`. -/
def eraseKey (stmt : String) : List (String × Entry) → List (String × Entry)
  | [] => []
  | kv :: rest => if kv.1 = stmt then rest else kv :: eraseKey stmt rest

/-- `QCInfoCache::erase(i)`: subtract the entry's accounted size, remove it
from the map and count one eviction. -/
def Cache.eraseStmt (c : Cache) (stmt : String) : Cache :=
  match findEntry stmt c.infos with
  | none => c
  | some e =>
    { infos := eraseKey stmt c.infos
      stats := { c.stats with
                 size := c.stats.size - entry_size e.infoSize
                 evictions := c.stats.evictions + 1 } }

/-- `QCInfoCache::get`: on a hit with matching `sql_mode` and `options`
return the shared info and bump both hit counters; on a version-tag
mismatch erase the stored entry and count a miss; on absence count a miss. -/
def Cache.get (c : Cache) (sql_mode options : Nat) (stmt : String) :
    Option Nat × Cache :=
  match findEntry stmt c.infos with
  | some entry =>
    if entry.sql_mode = sql_mode ∧ entry.options = options then
      (some entry.info,
       { infos := updateHits stmt c.infos
         stats := { c.stats with hits := c.stats.hits + 1 } })
    else
      let c' := c.eraseStmt stmt
      (none, { c' with stats := { c'.stats with misses := c'.stats.misses + 1 } })
  | none =>
    (none, { c with stats := { c.stats with misses := c.stats.misses + 1 } })

/-- `QCInfoCache::evict`: one random-bucket eviction.  The random engine is
modelled by a pick that either designates the first entry of a non-empty
bucket (`some i`, the entry at index `i` of the list) or lands in an empty
bucket (`none`, or an out-of-range index): then nothing is freed. -/
def evictAt (c : Cache) (i : Nat) : Int × Cache :=
  match c.infos[i]? with
  | none => (0, c)
  | some kv =>
    (entry_size kv.2.infoSize,
     { infos := c.infos.eraseIdx i
       stats := { c.stats with
                  size := c.stats.size - entry_size kv.2.infoSize
                  evictions := c.stats.evictions + 1 } })

/-- The loop of `QCInfoCache::make_space`:
`while ((freed_space < required_space) && !m_infos.empty()) freed_space += evict(dis)`.
The stream of random bucket picks is a finite oracle list; the boolean result
is `true` when the loop exited through its own condition and `false` when the
oracle was exhausted first. -/
def make_space_go (required : Int) :
    List (Option Nat) → Int → Cache → Cache × Bool
  | [], freed, c =>
    if freed < required ∧ c.infos ≠ [] then (c, false) else (c, true)
  | p :: ps, freed, c =>
    if freed < required ∧ c.infos ≠ [] then
      match p with
      | none => make_space_go required ps freed c
      | some i => make_space_go required ps (freed + (evictAt c i).1) (evictAt c i).2
    else (c, true)

/-- `QCInfoCache::make_space`. -/
def make_space (picks : List (Option Nat)) (required : Int) (c : Cache) :
    Cache × Bool :=
  make_space_go required picks 0 c

/-- The intermediate state of `QCInfoCache::insert` right after the
conditional `make_space` call (the cache at the second budget check). -/
def insert_mid (c : Cache) (picks : List (Option Nat)) (B : Int) (infoSize : Nat) :
    Cache :=
  if c.stats.size + entry_size infoSize - B > 0
  then (make_space picks (c.stats.size + entry_size infoSize - B) c).1
  else c

/-- `QCInfoCache::insert`.  `cache_max_size` is the per-worker budget
(the global `cache_max_size` divided by the number of running workers and
scaled by the 0.65 safety factor, computed by the caller in the source).
Entries at or above `max_entry_size`, or above the budget, are rejected;
otherwise space is made if needed and the entry inserted only if the
resulting total fits.  `m_infos.emplace` has no effect on an existing key,
which the model reproduces.  The function signals no error in any case. -/
def Cache.insert (c : Cache) (sql_mode options : Nat) (picks : List (Option Nat))
    (cache_max_size : Int) (stmt : String) (info : Nat) (infoSize : Nat) : Cache :=
  let size := entry_size infoSize
  if size < max_entry_size ∧ size ≤ cache_max_size then
    let required_space := c.stats.size + size - cache_max_size
    let c1 := if required_space > 0 then (make_space picks required_space c).1 else c
    if c1.stats.size + size ≤ cache_max_size then
      let infos' :=
        if findEntry stmt c1.infos = none then
          c1.infos ++ [(stmt, { info := info, infoSize := infoSize,
                                sql_mode := sql_mode, options := options,
                                hits := 0 })]
        else c1.infos
      { infos := infos'
        stats := { c1.stats with
                   inserts := c1.stats.inserts + 1
                   size := c1.stats.size + size } }
    else c1
  else c

/-- `QCInfoCache::update_total_size(int32_t delta)`: `m_stats.size += delta`,
with no budget check. -/
def Cache.update_total_size (c : Cache) (delta : Int) : Cache :=
  { c with stats := { c.stats with size := c.stats.size + delta } }

/-- A cache operation, as named in claim C1: a lookup, an insertion, or a
size adjustment. -/
inductive Op where
  | get (sql_mode options : Nat) (stmt : String)
  | insert (sql_mode options : Nat) (picks : List (Option Nat)) (stmt : String)
      (info : Nat) (infoSize : Nat)
  | update (delta : Int)
deriving Repr, DecidableEq

def Op.isUpdate : Op → Bool
  | .update _ => true
  | _ => false

/-- Apply one operation, with a fixed per-worker budget. -/
def applyOp (budget : Int) (c : Cache) : Op → Cache
  | .get sm opt stmt => (c.get sm opt stmt).2
  | .insert sm opt picks stmt info isz => c.insert sm opt picks budget stmt info isz
  | .update d => c.update_total_size d

/-- Run a sequence of cache operations. -/
def run (budget : Int) (c : Cache) (ops : List Op) : Cache :=
  ops.foldl (applyOp budget) c

/-- Well-formedness of the map: keys are unique (an `unordered_map` holds at
most one entry per key). -/
def WF (c : Cache) : Prop := (c.infos.map Prod.fst).Nodup

instance : DecidablePred WF := fun c =>
  inferInstanceAs (Decidable ((c.infos.map Prod.fst).Nodup))

end QC

/-! ## RoutingWorker::get_backend_connection, routingworker.cc lines 533-596 -/

namespace GBC

/-- Server-side state read and written by `get_backend_connection`.
Modelled from the spec: the server's statistics object (declared outside
`src/`) keeps a current-connection count and an "intent" counter;
`add_conn_intent` atomically increments the intent counter and returns the
post-increment value, `remove_conn_intent` decrements it, and
`add_connection` increments the connection count. -/
structure ServerState where
  persistent_conns_enabled : Bool
  is_running : Bool
  max_routing_connections : Int
  n_current_conns : Int
  n_conn_intents : Int
deriving Repr, DecidableEq

/-- `RoutingWorker::ConnectionResult`. -/
structure ConnectionResult where
  conn_limit_reached : Bool
  conn : Option Nat
deriving Repr, DecidableEq

/-- Events on the server's intent counter and connection-creation attempts,
recorded in the order they happen during one call. -/
inductive Ev where
  | addIntent
  | createConn
  | removeIntent
deriving Repr, DecidableEq

structure GBCResult where
  res : ConnectionResult
  srv : ServerState
  trace : List Ev
deriving Repr, DecidableEq

/-- `RoutingWorker::get_backend_connection`.  `pool_conn` models the result
of `pool_get_connection` (consulted only when the server has persistent
connections enabled and is running); `new_conn` models the result of
`Session::create_backend_connection` (`none` = creation failed). -/
def get_backend_connection (srv : ServerState) (pool_conn : Option Nat)
    (new_conn : Option Nat) : GBCResult :=
  if srv.persistent_conns_enabled ∧ srv.is_running ∧ pool_conn.isSome then
    { res := { conn_limit_reached := false, conn := pool_conn }
      srv := srv, trace := [] }
  else if srv.max_routing_connections > 0 then
    if srv.n_current_conns + srv.n_conn_intents ≥ srv.max_routing_connections then
      { res := { conn_limit_reached := true, conn := none }
        srv := srv, trace := [] }
    else
      let intents := srv.n_conn_intents + 1
      if intents + srv.n_current_conns ≤ srv.max_routing_connections then
        match new_conn with
        | some c =>
          { res := { conn_limit_reached := false, conn := some c }
            srv := { srv with n_current_conns := srv.n_current_conns + 1
                              n_conn_intents := intents - 1 }
            trace := [.addIntent, .createConn, .removeIntent] }
        | none =>
          { res := { conn_limit_reached := false, conn := none }
            srv := { srv with n_conn_intents := intents - 1 }
            trace := [.addIntent, .createConn, .removeIntent] }
      else
        { res := { conn_limit_reached := true, conn := none }
          srv := { srv with n_conn_intents := intents - 1 }
          trace := [.addIntent, .removeIntent] }
  else
    match new_conn with
    | some c =>
      { res := { conn_limit_reached := false, conn := some c }
        srv := { srv with n_current_conns := srv.n_current_conns + 1 }
        trace := [.createConn] }
    | none =>
      { res := { conn_limit_reached := false, conn := none }
        srv := srv, trace := [.createConn] }

end GBC

/-! ## RoutingWorker::move_to_conn_pool and the pool-stub DCB handler,
routingworker.cc lines 122-147, 706-756, 850-892 -/

namespace Pool

/-- `DCB::State`; only `POLLING` is distinguished by the pooling check. -/
inductive DCBState where
  | created
  | polling
  | nopolling
  | zombie
deriving Repr, DecidableEq

/-- The four DCB event entry points. -/
inductive DcbEvent where
  | ready_for_reading
  | write_ready
  | error
  | hangup
deriving Repr, DecidableEq

/-- What a handler callback does with the DCB. -/
inductive PoolAction where
  | evict
  | dispatch
deriving Repr, DecidableEq

/-- `RoutingWorker::DCBHandler`: every one of the four events on a pooled
backend DCB calls `evict_dcb`. -/
def DCBHandler : DcbEvent → PoolAction
  | .ready_for_reading => .evict
  | .write_ready => .evict
  | .error => .evict
  | .hangup => .evict

/-- The attributes of the candidate connection, its session and its server
that `move_to_conn_pool` inspects. -/
structure MoveInput where
  persistpoolmax : Int
  dcb_state : DCBState
  hanged_up : Bool
  established : Bool
  has_session : Bool
  can_pool_backends : Bool
  server_running : Bool
deriving Repr, DecidableEq

/-- `RoutingWorker::ConnectionPool` for one server: the idle entries
(`m_contents`, keyed by connection) and the local capacity. -/
structure ConnectionPool where
  contents : List Nat
  capacity : Int
deriving Repr, DecidableEq

/-- `ConnectionPool::has_space`: `(int)m_contents.size() < m_capacity`. -/
def ConnectionPool.has_space (p : ConnectionPool) : Prop :=
  (p.contents.length : Int) < p.capacity

instance : DecidablePred ConnectionPool.has_space := fun p =>
  inferInstanceAs (Decidable ((p.contents.length : Int) < p.capacity))

/-- `ConnectionPool::set_capacity`: global capacity divided by worker count. -/
def set_capacity (global_capacity nWorkers : Int) : Int :=
  global_capacity / nWorkers

/-- The slice of worker state touched by `move_to_conn_pool`: this server's
entry in `m_pool_group` (if any), the regular DCB book-keeping `m_dcbs`,
whether the connection's handler is the pool stub, and the connections this
worker has closed. -/
structure MoveState where
  pool : Option ConnectionPool
  dcbs : List Nat
  handler_is_pool_stub : Bool
  closed : List Nat
deriving Repr, DecidableEq

/-- The pool `move_to_conn_pool` works with: the server's existing entry in
`m_pool_group`, or the freshly constructed pool
`ConnectionPool(this, pServer, global_pool_cap)` emplaced on first use. -/
def effective_pool (nWorkers : Int) (inp : MoveInput) (st : MoveState) :
    ConnectionPool :=
  match st.pool with
  | some p => p
  | none => { contents := [], capacity := set_capacity inp.persistpoolmax nWorkers }

/-- `RoutingWorker::move_to_conn_pool`.  Returns whether the connection was
pooled together with the updated state (`conn` doubles as the DCB id). -/
def move_to_conn_pool (nWorkers : Int) (inp : MoveInput) (conn : Nat)
    (st : MoveState) : Bool × MoveState :=
  if inp.persistpoolmax > 0 then
    if inp.dcb_state = .polling ∧ ¬inp.hanged_up ∧ inp.established
        ∧ inp.has_session ∧ inp.can_pool_backends ∧ inp.server_running then
      let pool := effective_pool nWorkers inp st
      if pool.has_space then
        (true, { st with
                 pool := some { pool with contents := pool.contents ++ [conn] }
                 dcbs := st.dcbs.erase conn
                 handler_is_pool_stub := true })
      else
        (false, { st with pool := some pool })
    else (false, st)
  else (false, st)

/-- `RoutingWorker::evict_dcb` followed by `ConnectionPool::remove_and_close`
and `RoutingWorker::close_pooled_dcb`: the entry is removed from the pool,
the DCB returns to the regular book-keeping and the connection is closed. -/
def evict_dcb (conn : Nat) (st : MoveState) : MoveState :=
  match st.pool with
  | none => st
  | some p =>
    { st with
      pool := some { p with contents := p.contents.erase conn }
      dcbs := st.dcbs ++ [conn]
      closed := st.closed ++ [conn] }

end Pool

/-! ## RoutingWorker::delete_zombies, routingworker.cc lines 86-92, 482-518 -/

namespace Zomb

/-- One backend connection of the zombie's session, with the seconds since
its last read (`MXS_CLOCK_TO_SEC(mxs_clock() - last_read())`) and the
protocol's own `can_close()` answer. -/
structure BackendConn where
  idle : Nat
  can_close : Bool
deriving Repr, DecidableEq

/-- `DCB::Role`. -/
inductive Role where
  | client
  | backend
  | internal
deriving Repr, DecidableEq

/-- A descriptor parked on the zombies list, with its role and (for client
DCBs) the backend connections of its session. -/
structure Zombie where
  id : Nat
  role : Role
  backends : List BackendConn
deriving Repr, DecidableEq

/-- `can_close_dcb`: idle for more than `SHOW_SHUTDOWN_TIMEOUT` (2 seconds)
since the last read, or the connection itself says it can be closed. -/
def can_close_dcb (b : BackendConn) : Bool :=
  decide (b.idle > 2) || b.can_close

/-- The `can_close` computation of the `delete_zombies` loop body: `true`
unless the DCB is a client DCB with some backend not ready to close. -/
def zombie_can_close (z : Zombie) : Bool :=
  if z.role = .client then z.backends.all can_close_dcb else true

/-- The `delete_zombies` loop: pop from the back of `m_zombies`, destroy the
DCB if it can be closed, otherwise push it onto `slow_zombies`. -/
def delete_zombies_go :
    List Zombie → List Zombie → List Zombie → List Zombie × List Zombie
  | [], destroyed, slow => (destroyed, slow)
  | z :: rest, destroyed, slow =>
    if zombie_can_close z then delete_zombies_go rest (destroyed ++ [z]) slow
    else delete_zombies_go rest destroyed (slow ++ [z])

/-- `RoutingWorker::delete_zombies` (called once per `epoll_tick`): returns
the destroyed DCBs and the new contents of `m_zombies` (the re-parked
slow zombies). -/
def delete_zombies (zombies : List Zombie) : List Zombie × List Zombie :=
  delete_zombies_go zombies.reverse [] []

end Zomb

/-! ## RoutingWorker::start_shutdown / try_shutdown / shutdown_complete,
routingworker.cc lines 420-437, 1684-1710 -/

namespace Shut

structure SessionS where
  sid : Nat
  killed : Bool
deriving Repr, DecidableEq

/-- The slice of worker state touched by `try_shutdown`: the session
registry, the pooled backend connections (all pools of `m_pool_group`
together), the connections closed so far, and whether `shutdown()` has
stopped the event loop. -/
structure WState where
  sessions : List SessionS
  pool_conns : List Nat
  closed : List Nat
  loop_stopped : Bool
deriving Repr, DecidableEq

/-- `RoutingWorker::pool_close_all_conns`: close every pooled connection and
clear the pool group. -/
def pool_close_all_conns (st : WState) : WState :=
  { st with pool_conns := [], closed := st.closed ++ st.pool_conns }

/-- `RoutingWorker::try_shutdown`, the callback installed by
`start_shutdown` on every worker with `dcall(100ms, ...)` (it returns `true`
so it repeats every 100 ms): close all pooled connections, then stop the
loop if the session registry is empty, otherwise kill every session. -/
def try_shutdown (st : WState) : WState :=
  let st1 := pool_close_all_conns st
  if st1.sessions.isEmpty then { st1 with loop_stopped := true }
  else { st1 with sessions := st1.sessions.map (fun s => { s with killed := true }) }

/-- The interval of the `dcall` installed by `start_shutdown`. -/
def shutdown_dcall_interval_ms : Nat := 100

/-- `mxb::Worker` run states.  Modelled from the spec: the worker base class
(outside `src/`) exposes a state, of which `shutdown_complete` accepts
`FINISHED` and `STOPPED`. -/
inductive RunState where
  | stopped
  | polling
  | processing
  | finished
deriving Repr, DecidableEq

/-- `RoutingWorker::shutdown_complete`: `true` unless some worker is in a
state other than `FINISHED` or `STOPPED`. -/
def shutdown_complete (states : List RunState) : Bool :=
  states.all (fun s => s = .finished ∨ s = .stopped)

end Shut

/-! ## RoutingWorker::rebalance, routingworker.cc lines 1514-1597 -/

namespace Reb

/-- A session as seen by the rebalancing code: whether it is movable and its
I/O activity. -/
structure RSession where
  sid : Nat
  movable : Bool
  io_activity : Int
deriving Repr, DecidableEq

/-- The selection loop of the one-session branch of
`RoutingWorker::rebalance`: `max_io_activity` starts at 0 and a movable
session is recorded only when its activity strictly exceeds the running
maximum. -/
def pick_go : List RSession → Int → Option RSession → Option RSession
  | [], _, best => best
  | s :: rest, maxAct, best =>
    if s.movable = true ∧ s.io_activity > maxAct then
      pick_go rest s.io_activity (some s)
    else pick_go rest maxAct best

/-- The most-active movable session, as the source selects it. -/
def pick_most_active (sessions : List RSession) : Option RSession :=
  pick_go sessions 0 none

/-- The multi-session branch: collect movable sessions in iteration order
until the requested count is reached. -/
def take_movable (n : Nat) (sessions : List RSession) : List RSession :=
  (sessions.filter (fun s => s.movable)).take n

/-- The sessions `RoutingWorker::rebalance` hands to `Session::move_to`
when asked to move `nSessions` sessions. -/
def rebalance_moved (nSessions : Int) (sessions : List RSession) : List RSession :=
  if nSessions = 1 then
    match pick_most_active sessions with
    | some s => [s]
    | none => []
  else if nSessions > 1 then take_movable nSessions.toNat sessions
  else []

end Reb

/-! ## RoutingWorker::ConnectionPool::get_connection and add_connection,
routingworker.cc lines 598-633, 850-854 -/

namespace CPool

/-- `mxs::BackendConnection::REUSE_NOT_POSSIBLE`.  Modelled from the spec:
the scoring returns `NOT_POSSIBLE`, a positive integer, or `OPTIMAL`;
the source initialises the best score with `REUSE_NOT_POSSIBLE` and only
strictly larger scores replace it, so `NOT_POSSIBLE` is the least value of
the `uint64_t` range. -/
def REUSE_NOT_POSSIBLE : Nat := 0

/-- `mxs::BackendConnection::OPTIMAL_REUSE`, the greatest `uint64_t` score;
reaching it short-circuits the search. -/
def OPTIMAL_REUSE : Nat := 2 ^ 64 - 1

/-- `RoutingWorker::ConnectionPoolStats` (the fields touched here). -/
structure PStats where
  max_size : Nat
  times_found : Nat
  times_empty : Nat
deriving Repr, DecidableEq

/-- A per-server pool: `m_contents` in iteration order plus `m_stats`. -/
structure ConnectionPool where
  contents : List Nat
  stats : PStats
deriving Repr, DecidableEq

/-- The scan loop of `ConnectionPool::get_connection`: keep the entry with
the strictly best `can_reuse` score, breaking at `OPTIMAL_REUSE`. -/
def scan (score : Nat → Nat) :
    List Nat → Option Nat → Nat → Option Nat × Nat
  | [], best, best_reuse => (best, best_reuse)
  | e :: rest, best, best_reuse =>
    if score e > best_reuse then
      if score e = OPTIMAL_REUSE then (some e, score e)
      else scan score rest (some e) (score e)
    else scan score rest best best_reuse

/-- `ConnectionPool::get_connection(session)`: the session is represented by
its scoring function `score = fun c => c.can_reuse(session)`.  On success the
chosen entry is removed and `times_found` incremented; otherwise
`times_empty` is incremented. -/
def get_connection (score : Nat → Nat) (p : ConnectionPool) :
    Option Nat × ConnectionPool :=
  let r := scan score p.contents none REUSE_NOT_POSSIBLE
  match r.1 with
  | some c =>
    (some c,
     { contents := p.contents.erase c
       stats := { p.stats with times_found := p.stats.times_found + 1 } })
  | none =>
    (none, { p with stats := { p.stats with times_empty := p.stats.times_empty + 1 } })

/-- `ConnectionPool::add_connection` (the pooling step of
`move_to_conn_pool`): emplace the entry and update the peak size. -/
def add_connection (conn : Nat) (p : ConnectionPool) : ConnectionPool :=
  { contents := p.contents ++ [conn]
    stats := { p.stats with max_size := Nat.max p.stats.max_size (p.contents.length + 1) } }

end CPool

/-! ## RoutingWorker::get_statistics, routingworker.cc lines 1239-1263 -/

namespace WStat

/-- `mxb::Worker::STATISTICS`, the fields aggregated by `get_statistics`
(array-valued members are modelled by one representative element). -/
structure WStats where
  n_read : Int
  n_write : Int
  n_error : Int
  n_hup : Int
  n_accept : Int
  n_polls : Int
  n_pollev : Int
  evq_avg : Int
  evq_max : Int
  maxqtime : Int
  maxexectime : Int
  n_fds : Int
  qtimes : Int
  exectimes : Int
deriving Repr, DecidableEq

/-- `mxs::sum` / `mxs::sum_element`.  Modelled from the spec: the
aggregation helpers of `maxscale/statistics.hh` (not under `src/`) fold the
selected member across the per-worker statistics. -/
def sumBy (s : List WStats) (f : WStats → Int) : Int := (s.map f).sum

/-- `mxs::min_element`: least value of the member across workers. -/
def min_elem (s : List WStats) (f : WStats → Int) : Int :=
  ((s.map f).min?).getD 0

/-- `mxs::max_element`: greatest value of the member across workers. -/
def max_elem (s : List WStats) (f : WStats → Int) : Int :=
  ((s.map f).max?).getD 0

/-- `mxs::avg` / `mxs::avg_element`: mean of the member across workers. -/
def avgBy (s : List WStats) (f : WStats → Int) : Int :=
  (s.map f).sum / s.length

def zeroStats : WStats := ⟨0, 0, 0, 0, 0, 0, 0, 0, 0, 0, 0, 0, 0, 0⟩

/-- `RoutingWorker::get_statistics`: the aggregate view.  The source assigns
`cs.n_fds` three times in a row (sum of elements, then minimum element, then
maximum element); the model performs the same three assignments in order. -/
def get_statistics (s : List WStats) : WStats :=
  let cs := zeroStats
  let cs := { cs with n_read := sumBy s (fun w => w.n_read) }
  let cs := { cs with n_write := sumBy s (fun w => w.n_write) }
  let cs := { cs with n_error := sumBy s (fun w => w.n_error) }
  let cs := { cs with n_hup := sumBy s (fun w => w.n_hup) }
  let cs := { cs with n_accept := sumBy s (fun w => w.n_accept) }
  let cs := { cs with n_polls := sumBy s (fun w => w.n_polls) }
  let cs := { cs with n_pollev := sumBy s (fun w => w.n_pollev) }
  let cs := { cs with evq_avg := avgBy s (fun w => w.evq_avg) }
  let cs := { cs with evq_max := max_elem s (fun w => w.evq_max) }
  let cs := { cs with maxqtime := max_elem s (fun w => w.maxqtime) }
  let cs := { cs with maxexectime := max_elem s (fun w => w.maxexectime) }
  let cs := { cs with n_fds := sumBy s (fun w => w.n_fds) }
  let cs := { cs with n_fds := min_elem s (fun w => w.n_fds) }
  let cs := { cs with n_fds := max_elem s (fun w => w.n_fds) }
  let cs := { cs with qtimes := avgBy s (fun w => w.qtimes) }
  let cs := { cs with exectimes := avgBy s (fun w => w.exectimes) }
  cs

end WStat

end MaxScale

/-! ## Theorems -/

namespace MaxScale.QC

theorem entry_size_nonneg (n : Nat) : 0 ≤ entry_size n := by
  simp only [entry_size, constant_overhead]
  omega

theorem evictAt_size_le (c : Cache) (i : Nat) :
    ((evictAt c i).2).stats.size ≤ c.stats.size := by
  cases h : c.infos[i]? with
  | none => simp [evictAt, h]
  | some kv =>
    have := entry_size_nonneg kv.2.infoSize
    simp [evictAt, h]
    omega

theorem make_space_go_size_le (required : Int) (picks : List (Option Nat)) :
    ∀ (freed : Int) (c : Cache),
      ((make_space_go required picks freed c).1).stats.size ≤ c.stats.size := by
  induction picks with
  | nil =>
    intro freed c
    unfold make_space_go
    split <;> simp
  | cons p ps ih =>
    intro freed c
    unfold make_space_go
    split
    · cases p with
      | none => exact ih freed c
      | some i => exact le_trans (ih _ _) (evictAt_size_le c i)
    · simp

theorem make_space_size_le (picks : List (Option Nat)) (required : Int) (c : Cache) :
    ((make_space picks required c).1).stats.size ≤ c.stats.size :=
  make_space_go_size_le required picks 0 c

theorem eraseStmt_size_le (c : Cache) (stmt : String) :
    (c.eraseStmt stmt).stats.size ≤ c.stats.size := by
  cases h : findEntry stmt c.infos with
  | none => simp [Cache.eraseStmt, h]
  | some e =>
    have := entry_size_nonneg e.infoSize
    simp [Cache.eraseStmt, h]
    omega

theorem get_size_le (c : Cache) (sm opt : Nat) (stmt : String) :
    ((c.get sm opt stmt).2).stats.size ≤ c.stats.size := by
  cases h : findEntry stmt c.infos with
  | none => simp [Cache.get, h]
  | some e =>
    by_cases htag : e.sql_mode = sm ∧ e.options = opt
    · simp [Cache.get, h, htag]
    · simp only [Cache.get, h]
      rw [if_neg htag]
      exact eraseStmt_size_le c stmt

theorem insert_size_le (c : Cache) (sm opt : Nat) (picks : List (Option Nat))
    (B : Int) (stmt : String) (info isz : Nat) (h : c.stats.size ≤ B) :
    (c.insert sm opt picks B stmt info isz).stats.size ≤ B := by
  by_cases hguard : entry_size isz < max_entry_size ∧ entry_size isz ≤ B
  · simp only [Cache.insert]
    rw [if_pos hguard]
    have hc1 : (if c.stats.size + entry_size isz - B > 0
        then (make_space picks (c.stats.size + entry_size isz - B) c).1
        else c).stats.size ≤ c.stats.size := by
      split
      · exact make_space_size_le _ _ _
      · exact le_rfl
    by_cases hfit : (if c.stats.size + entry_size isz - B > 0
        then (make_space picks (c.stats.size + entry_size isz - B) c).1
        else c).stats.size + entry_size isz ≤ B
    · rw [if_pos hfit]
      exact hfit
    · rw [if_neg hfit]
      omega
  · simp only [Cache.insert]
    rw [if_neg hguard]
    exact h

theorem applyOp_insert (budget : Int) (c : Cache) (sm opt : Nat)
    (picks : List (Option Nat)) (stmt : String) (info isz : Nat) :
    applyOp budget c (Op.insert sm opt picks stmt info isz) =
      c.insert sm opt picks budget stmt info isz := rfl

theorem applyOp_size_le (budget : Int) (c : Cache) (op : Op)
    (hop : op.isUpdate = false) (h : c.stats.size ≤ budget) :
    (applyOp budget c op).stats.size ≤ budget := by
  cases op with
  | get sm opt stmt => exact le_trans (get_size_le c sm opt stmt) h
  | insert sm opt picks stmt info isz =>
    rw [applyOp_insert]
    exact insert_size_le c sm opt picks budget stmt info isz h
  | update d => simp [Op.isUpdate] at hop

theorem run_cons (budget : Int) (c : Cache) (op : Op) (ops : List Op) :
    run budget c (op :: ops) = run budget (applyOp budget c op) ops := rfl

end MaxScale.QC

open MaxScale in
/-- C1: for every sequence of cache operations on one worker's
parsed-statement cache consisting of lookups (`QCInfoCache::get`) and
insertions (`QCInfoCache::insert`) against a fixed per-worker budget, the
cache's accounted size statistic never exceeds the budget.  The claim as
frozen also admits `update_total_size` among the operations, which breaks
the invariant (see the counterexample); this theorem proves the amended
claim restricted to lookups and insertions. -/
theorem claim_C1 (budget : Int) (ops : List QC.Op) (c : QC.Cache)
    (hops : ∀ op ∈ ops, op.isUpdate = false)
    (hc : c.stats.size ≤ budget) :
    (QC.run budget c ops).stats.size ≤ budget := by
  induction ops generalizing c with
  | nil => exact hc
  | cons op rest ih =>
    rw [QC.run_cons]
    exact ih _ (fun o ho => hops o (List.mem_cons_of_mem op ho))
      (QC.applyOp_size_le budget c op (hops op (List.mem_cons_self op rest)) hc)

open MaxScale in
/-- C1 counterexample: a size adjustment via
`QCInfoCache::update_total_size` carries no budget check, so the single
operation `update_total_size(101)` on an empty cache drives the accounted
size to 101 while the per-worker budget is 100 — the claim, which includes
size adjustments among the covered operations, is false on the code. -/
theorem claim_C1_counterexample :
    ¬ ((QC.run 100 QC.Cache.empty [QC.Op.update 101]).stats.size ≤ 100) := by
  decide

open MaxScale in
/-- C1 witness: a concrete insert-then-lookup run that stays within a
budget of 1000. -/
theorem claim_C1_witness :
    (QC.run 1000 QC.Cache.empty
      [QC.Op.insert 0 0 [] "q" 7 4, QC.Op.get 0 0 "q"]).stats.size ≤ 1000 :=
  claim_C1 1000 _ QC.Cache.empty (by decide) (by decide)

namespace MaxScale.QC

theorem evictAt_freed (c : Cache) (i : Nat) :
    (evictAt c i).1 = c.stats.size - (evictAt c i).2.stats.size := by
  cases h : c.infos[i]? with
  | none => simp [evictAt, h]
  | some kv =>
    simp [evictAt, h]

theorem evictAt_infos_sublist (c : Cache) (i : Nat) :
    (evictAt c i).2.infos.Sublist c.infos := by
  cases h : c.infos[i]? with
  | none => simp [evictAt, h]
  | some kv =>
    simp only [evictAt, h]
    exact List.eraseIdx_sublist c.infos i

theorem evictAt_inserts (c : Cache) (i : Nat) :
    (evictAt c i).2.stats.inserts = c.stats.inserts := by
  cases h : c.infos[i]? with
  | none => simp [evictAt, h]
  | some kv => simp [evictAt, h]

theorem make_space_go_infos_sublist (required : Int) (picks : List (Option Nat)) :
    ∀ (freed : Int) (c : Cache),
      ((make_space_go required picks freed c).1).infos.Sublist c.infos := by
  induction picks with
  | nil =>
    intro freed c
    unfold make_space_go
    split <;> exact List.Sublist.refl _
  | cons p ps ih =>
    intro freed c
    unfold make_space_go
    split
    · cases p with
      | none => exact ih freed c
      | some i => exact List.Sublist.trans (ih _ _) (evictAt_infos_sublist c i)
    · exact List.Sublist.refl _

theorem make_space_go_inserts (required : Int) (picks : List (Option Nat)) :
    ∀ (freed : Int) (c : Cache),
      ((make_space_go required picks freed c).1).stats.inserts = c.stats.inserts := by
  induction picks with
  | nil =>
    intro freed c
    unfold make_space_go
    split <;> rfl
  | cons p ps ih =>
    intro freed c
    unfold make_space_go
    split
    · cases p with
      | none => exact ih freed c
      | some i => rw [ih _ _, evictAt_inserts]
    · rfl

theorem make_space_go_flag (required : Int) (picks : List (Option Nat)) :
    ∀ (freed : Int) (c : Cache),
      (make_space_go required picks freed c).2 = true →
      required ≤ freed + (c.stats.size - ((make_space_go required picks freed c).1).stats.size)
      ∨ ((make_space_go required picks freed c).1).infos = [] := by
  induction picks with
  | nil =>
    intro freed c hflag
    by_cases hcond : freed < required ∧ c.infos ≠ []
    · have hfalse : (make_space_go required [] freed c).2 = false := by
        unfold make_space_go
        rw [if_pos hcond]
      rw [hfalse] at hflag
      exact absurd hflag (by simp)
    · have h1 : (make_space_go required [] freed c).1 = c := by
        unfold make_space_go
        split <;> rfl
      rw [h1]
      rw [not_and_or] at hcond
      rcases hcond with hge | hemp
      · left; omega
      · right; simpa using hemp
  | cons p ps ih =>
    intro freed c hflag
    by_cases hcond : freed < required ∧ c.infos ≠ []
    · cases p with
      | none =>
        have heq : make_space_go required (none :: ps) freed c
            = make_space_go required ps freed c := by
          conv_lhs => unfold make_space_go
          rw [if_pos hcond]
        rw [heq] at hflag ⊢
        exact ih freed c hflag
      | some i =>
        have heq : make_space_go required (some i :: ps) freed c
            = make_space_go required ps (freed + (evictAt c i).1) (evictAt c i).2 := by
          conv_lhs => unfold make_space_go
          rw [if_pos hcond]
        rw [heq] at hflag ⊢
        rcases ih _ _ hflag with h1 | h2
        · left
          have he := evictAt_freed c i
          omega
        · right
          exact h2
    · have h1 : (make_space_go required (p :: ps) freed c).1 = c := by
        unfold make_space_go
        rw [if_neg hcond]
      rw [h1]
      rw [not_and_or] at hcond
      rcases hcond with hge | hemp
      · left; omega
      · right; simpa using hemp

theorem make_space_flag (picks : List (Option Nat)) (req : Int) (c : Cache)
    (h : (make_space picks req c).2 = true) :
    req ≤ c.stats.size - ((make_space picks req c).1).stats.size
    ∨ ((make_space picks req c).1).infos = [] := by
  unfold make_space at h ⊢
  rcases make_space_go_flag req picks 0 c h with h1 | h2
  · left; omega
  · right; exact h2

theorem insert_mid_sublist (c : Cache) (picks : List (Option Nat)) (B : Int)
    (isz : Nat) : (insert_mid c picks B isz).infos.Sublist c.infos := by
  unfold insert_mid
  split
  · exact make_space_go_infos_sublist _ _ _ _
  · exact List.Sublist.refl _

theorem insert_mid_inserts (c : Cache) (picks : List (Option Nat)) (B : Int)
    (isz : Nat) : (insert_mid c picks B isz).stats.inserts = c.stats.inserts := by
  unfold insert_mid
  split
  · exact make_space_go_inserts _ _ _ _
  · rfl

theorem findEntry_append_self (stmt : String) (e : Entry) :
    ∀ l : List (String × Entry), findEntry stmt l = none →
      findEntry stmt (l ++ [(stmt, e)]) = some e := by
  intro l
  induction l with
  | nil => intro _; simp [findEntry]
  | cons kv rest ih =>
    intro h
    simp only [findEntry] at h
    by_cases hk : kv.1 = stmt
    · rw [if_pos hk] at h
      exact absurd h (by simp)
    · rw [if_neg hk] at h
      rw [List.cons_append]
      simp only [findEntry]
      rw [if_neg hk]
      exact ih h

theorem insert_eq_mid (c : Cache) (sm opt : Nat) (picks : List (Option Nat))
    (B : Int) (stmt : String) (info isz : Nat) :
    c.insert sm opt picks B stmt info isz =
      (if entry_size isz < max_entry_size ∧ entry_size isz ≤ B then
        (if (insert_mid c picks B isz).stats.size + entry_size isz ≤ B then
          { infos :=
              (if findEntry stmt (insert_mid c picks B isz).infos = none then
                (insert_mid c picks B isz).infos
                  ++ [(stmt, { info := info, infoSize := isz,
                               sql_mode := sm, options := opt, hits := 0 })]
               else (insert_mid c picks B isz).infos)
            stats := { (insert_mid c picks B isz).stats with
                       inserts := (insert_mid c picks B isz).stats.inserts + 1
                       size := (insert_mid c picks B isz).stats.size + entry_size isz } }
         else insert_mid c picks B isz)
       else c) := rfl

end MaxScale.QC

open MaxScale in
/-- C3: `QCInfoCache::insert` never signals an error (it is a total function
into caches): an entry whose accounted size reaches the protocol ceiling
`0xffffff - 5` or exceeds the per-worker budget is rejected with the cache
unchanged; otherwise, after the conditional eviction pass, the entry is
inserted exactly when the resulting total fits within the budget (and then
the new total is within budget), and otherwise the insert is silently
dropped with no entry added (entries can only have been evicted, and the
insert counter is untouched); whenever the eviction loop of `make_space`
terminates through its own condition it has freed at least the required
space or emptied the cache. -/
theorem claim_C3 (c : QC.Cache) (sm opt : Nat) (picks : List (Option Nat))
    (B : Int) (stmt : String) (info isz : Nat) :
    (¬(QC.entry_size isz < QC.max_entry_size ∧ QC.entry_size isz ≤ B) →
        c.insert sm opt picks B stmt info isz = c)
    ∧ ((QC.entry_size isz < QC.max_entry_size ∧ QC.entry_size isz ≤ B) →
        ((QC.insert_mid c picks B isz).stats.size + QC.entry_size isz ≤ B →
            (c.insert sm opt picks B stmt info isz).stats.size
              = (QC.insert_mid c picks B isz).stats.size + QC.entry_size isz
            ∧ (c.insert sm opt picks B stmt info isz).stats.size ≤ B
            ∧ (c.insert sm opt picks B stmt info isz).stats.inserts
              = (QC.insert_mid c picks B isz).stats.inserts + 1
            ∧ (QC.findEntry stmt (QC.insert_mid c picks B isz).infos = none →
                QC.findEntry stmt (c.insert sm opt picks B stmt info isz).infos
                  = some { info := info, infoSize := isz, sql_mode := sm,
                           options := opt, hits := 0 }))
        ∧ (¬((QC.insert_mid c picks B isz).stats.size + QC.entry_size isz ≤ B) →
            c.insert sm opt picks B stmt info isz = QC.insert_mid c picks B isz
            ∧ (c.insert sm opt picks B stmt info isz).infos.Sublist c.infos
            ∧ (c.insert sm opt picks B stmt info isz).stats.inserts
              = c.stats.inserts))
    ∧ (∀ req : Int, (QC.make_space picks req c).2 = true →
        req ≤ c.stats.size - ((QC.make_space picks req c).1).stats.size
        ∨ ((QC.make_space picks req c).1).infos = []) := by
  refine ⟨?_, ?_, ?_⟩
  · intro hguard
    rw [QC.insert_eq_mid, if_neg hguard]
  · intro hguard
    constructor
    · intro hfit
      rw [QC.insert_eq_mid, if_pos hguard, if_pos hfit]
      refine ⟨rfl, by simpa using hfit, rfl, ?_⟩
      intro hfind
      rw [if_pos hfind]
      exact QC.findEntry_append_self stmt _ _ hfind
    · intro hfit
      rw [QC.insert_eq_mid, if_pos hguard, if_neg hfit]
      exact ⟨rfl, QC.insert_mid_sublist c picks B isz,
             QC.insert_mid_inserts c picks B isz⟩
  · intro req hflag
    exact QC.make_space_flag picks req c hflag

open MaxScale in
/-- C3 witness: inserting a small entry into the empty cache under a budget
of 1000 lands in the "fits" branch and charges exactly the accounted entry
size. -/
theorem claim_C3_witness :
    (QC.Cache.empty.insert 0 0 [] 1000 "q" 7 4).stats.size
      = (QC.insert_mid QC.Cache.empty [] 1000 4).stats.size + QC.entry_size 4 :=
  (((claim_C3 QC.Cache.empty 0 0 [] 1000 "q" 7 4).2.1 (by decide)).1 (by decide)).1

namespace MaxScale.QC

theorem findEntry_none_of_not_mem (stmt : String) :
    ∀ l : List (String × Entry), stmt ∉ l.map Prod.fst → findEntry stmt l = none := by
  intro l
  induction l with
  | nil => intro _; rfl
  | cons kv rest ih =>
    intro h
    simp only [List.map_cons, List.mem_cons, not_or] at h
    simp only [findEntry]
    rw [if_neg (fun he => h.1 he.symm)]
    exact ih h.2

theorem not_mem_of_findEntry_none (stmt : String) :
    ∀ l : List (String × Entry), findEntry stmt l = none → stmt ∉ l.map Prod.fst := by
  intro l
  induction l with
  | nil => intro _; simp
  | cons kv rest ih =>
    intro h
    simp only [findEntry] at h
    by_cases hk : kv.1 = stmt
    · rw [if_pos hk] at h
      exact absurd h (by simp)
    · rw [if_neg hk] at h
      simp only [List.map_cons, List.mem_cons, not_or]
      exact ⟨fun he => hk he.symm, ih h⟩

theorem keys_updateHits (stmt : String) :
    ∀ l : List (String × Entry), (updateHits stmt l).map Prod.fst = l.map Prod.fst := by
  intro l
  induction l with
  | nil => rfl
  | cons kv rest ih =>
    simp only [updateHits]
    by_cases hk : kv.1 = stmt
    · rw [if_pos hk]
      simp
    · rw [if_neg hk]
      simp only [List.map_cons]
      rw [ih]

theorem eraseKey_sublist (stmt : String) :
    ∀ l : List (String × Entry), (eraseKey stmt l).Sublist l := by
  intro l
  induction l with
  | nil => exact List.Sublist.refl _
  | cons kv rest ih =>
    simp only [eraseKey]
    by_cases hk : kv.1 = stmt
    · rw [if_pos hk]
      exact List.sublist_cons_self kv rest
    · rw [if_neg hk]
      exact List.Sublist.cons₂ kv ih

theorem findEntry_updateHits_self (stmt : String) (e : Entry) :
    ∀ l : List (String × Entry), findEntry stmt l = some e →
      findEntry stmt (updateHits stmt l) = some { e with hits := e.hits + 1 } := by
  intro l
  induction l with
  | nil => intro h; exact absurd h (by simp [findEntry])
  | cons kv rest ih =>
    intro h
    simp only [findEntry] at h
    simp only [updateHits]
    by_cases hk : kv.1 = stmt
    · rw [if_pos hk] at h
      rw [if_pos hk]
      simp only [findEntry]
      rw [if_pos hk]
      rw [Option.some_inj] at h
      rw [h]
    · rw [if_neg hk] at h
      rw [if_neg hk]
      simp only [findEntry]
      rw [if_neg hk]
      exact ih h

theorem findEntry_eraseKey_self (stmt : String) :
    ∀ l : List (String × Entry), (l.map Prod.fst).Nodup →
      findEntry stmt (eraseKey stmt l) = none := by
  intro l
  induction l with
  | nil => intro _; rfl
  | cons kv rest ih =>
    intro hnd
    simp only [List.map_cons, List.nodup_cons] at hnd
    simp only [eraseKey]
    by_cases hk : kv.1 = stmt
    · rw [if_pos hk]
      exact findEntry_none_of_not_mem stmt rest (hk ▸ hnd.1)
    · rw [if_neg hk]
      simp only [findEntry]
      rw [if_neg hk]
      exact ih hnd.2

theorem WF_get (c : Cache) (sm opt : Nat) (stmt : String) (hwf : WF c) :
    WF ((c.get sm opt stmt).2) := by
  unfold WF at hwf ⊢
  cases hfind : findEntry stmt c.infos with
  | none => simpa [Cache.get, hfind] using hwf
  | some e =>
    by_cases htag : e.sql_mode = sm ∧ e.options = opt
    · simp only [Cache.get, hfind]
      rw [if_pos htag]
      simpa [keys_updateHits] using hwf
    · simp only [Cache.get, hfind]
      rw [if_neg htag]
      simp only [Cache.eraseStmt, hfind]
      exact List.Nodup.sublist ((eraseKey_sublist stmt c.infos).map Prod.fst) hwf

theorem WF_insert_mid (c : Cache) (picks : List (Option Nat)) (B : Int)
    (isz : Nat) (hwf : WF c) : WF (insert_mid c picks B isz) :=
  List.Nodup.sublist ((insert_mid_sublist c picks B isz).map Prod.fst) hwf

theorem WF_insert (c : Cache) (sm opt : Nat) (picks : List (Option Nat))
    (B : Int) (stmt : String) (info isz : Nat) (hwf : WF c) :
    WF (c.insert sm opt picks B stmt info isz) := by
  rw [insert_eq_mid]
  have hmid := WF_insert_mid c picks B isz hwf
  split
  · split
    · unfold WF
      simp only
      split
      · rename_i hnone
        rw [List.map_append]
        refine List.Nodup.append hmid ?_ ?_
        · simp
        · intro a ha hb
          simp only [List.map_cons, List.map_nil, List.mem_singleton] at hb
          exact not_mem_of_findEntry_none stmt _ hnone (hb ▸ ha)
      · exact hmid
    · exact hmid
  · exact hwf

end MaxScale.QC

open MaxScale in
/-- C4: a `QCInfoCache::get` on a cached key whose current `sql_mode` or
parser options differ from those stored in the entry removes the stored
entry, records one eviction and one miss, subtracts the entry's accounted
size, and returns no result; a lookup matching both tags returns the shared
parse result and increments both the entry's hit count and the global hits
counter; the map's keys stay unique under both `get` and `insert` (so one
key never holds entries under two different version tags). -/
theorem claim_C4 (c : QC.Cache) (sm opt : Nat) (stmt : String) (e : QC.Entry)
    (hwf : QC.WF c) (hfind : QC.findEntry stmt c.infos = some e) :
    ((e.sql_mode = sm ∧ e.options = opt) →
        (c.get sm opt stmt).1 = some e.info
        ∧ QC.findEntry stmt ((c.get sm opt stmt).2).infos
            = some { e with hits := e.hits + 1 }
        ∧ ((c.get sm opt stmt).2).stats.hits = c.stats.hits + 1)
    ∧ (¬(e.sql_mode = sm ∧ e.options = opt) →
        (c.get sm opt stmt).1 = none
        ∧ QC.findEntry stmt ((c.get sm opt stmt).2).infos = none
        ∧ ((c.get sm opt stmt).2).stats.evictions = c.stats.evictions + 1
        ∧ ((c.get sm opt stmt).2).stats.misses = c.stats.misses + 1
        ∧ ((c.get sm opt stmt).2).stats.size
            = c.stats.size - QC.entry_size e.infoSize)
    ∧ QC.WF ((c.get sm opt stmt).2)
    ∧ (∀ (sm2 opt2 : Nat) (picks : List (Option Nat)) (B : Int)
        (stmt2 : String) (info isz : Nat),
          QC.WF (c.insert sm2 opt2 picks B stmt2 info isz)) := by
  refine ⟨?_, ?_, QC.WF_get c sm opt stmt hwf,
         fun sm2 opt2 picks B stmt2 info isz =>
           QC.WF_insert c sm2 opt2 picks B stmt2 info isz hwf⟩
  · intro htag
    refine ⟨?_, ?_, ?_⟩
    · simp only [QC.Cache.get, hfind]
      rw [if_pos htag]
    · simp only [QC.Cache.get, hfind]
      rw [if_pos htag]
      exact QC.findEntry_updateHits_self stmt e c.infos hfind
    · simp only [QC.Cache.get, hfind]
      rw [if_pos htag]
  · intro htag
    refine ⟨?_, ?_, ?_, ?_, ?_⟩
    · simp only [QC.Cache.get, hfind]
      rw [if_neg htag]
    · simp only [QC.Cache.get, hfind]
      rw [if_neg htag]
      show QC.findEntry stmt (c.eraseStmt stmt).infos = none
      simp only [QC.Cache.eraseStmt, hfind]
      exact QC.findEntry_eraseKey_self stmt c.infos hwf
    · simp only [QC.Cache.get, hfind]
      rw [if_neg htag]
      show (c.eraseStmt stmt).stats.evictions = c.stats.evictions + 1
      simp only [QC.Cache.eraseStmt, hfind]
    · simp only [QC.Cache.get, hfind]
      rw [if_neg htag]
      show (c.eraseStmt stmt).stats.misses + 1 = c.stats.misses + 1
      simp only [QC.Cache.eraseStmt, hfind]
    · simp only [QC.Cache.get, hfind]
      rw [if_neg htag]
      show (c.eraseStmt stmt).stats.size = c.stats.size - QC.entry_size e.infoSize
      simp only [QC.Cache.eraseStmt, hfind]

open MaxScale in
/-- C4 witness: on a one-entry cache a mismatched lookup (different
`sql_mode`) evicts the entry. -/
theorem claim_C4_witness :
    ((⟨[("q", { info := 3, infoSize := 4, sql_mode := 0, options := 0,
                hits := 0 })], QC.Stats.zero⟩ : QC.Cache).get 1 0 "q").1 = none :=
  ((claim_C4
      ⟨[("q", { info := 3, infoSize := 4, sql_mode := 0, options := 0,
                hits := 0 })], QC.Stats.zero⟩ 1 0 "q"
      { info := 3, infoSize := 4, sql_mode := 0, options := 0, hits := 0 }
      (by decide) (by decide)).2.1 (by decide)).1

open MaxScale in
/-- C2: in `RoutingWorker::get_backend_connection`, for a server with a
positive routing-connection limit, the trace of intent-counter events of one
call is `[]`, `[addIntent, removeIntent]`, or
`[addIntent, createConn, removeIntent]`: every increment is matched by
exactly one decrement before the call returns (the net intent count is
unchanged), and the connection-creation attempt happens only if, after the
increment, the re-read sum of intents and current connections is within the
limit. -/
theorem claim_C2 (srv : GBC.ServerState) (pool_conn new_conn : Option Nat)
    (r : GBC.GBCResult) (hpos : 0 < srv.max_routing_connections)
    (hr : r = GBC.get_backend_connection srv pool_conn new_conn) :
    (r.trace = []
      ∨ r.trace = [GBC.Ev.addIntent, GBC.Ev.removeIntent]
      ∨ r.trace = [GBC.Ev.addIntent, GBC.Ev.createConn, GBC.Ev.removeIntent])
    ∧ r.trace.count GBC.Ev.addIntent = r.trace.count GBC.Ev.removeIntent
    ∧ r.srv.n_conn_intents = srv.n_conn_intents
    ∧ (GBC.Ev.createConn ∈ r.trace →
        srv.n_conn_intents + 1 + srv.n_current_conns
          ≤ srv.max_routing_connections) := by
  subst hr
  simp only [GBC.get_backend_connection]
  by_cases h1 : srv.persistent_conns_enabled = true ∧ srv.is_running = true
      ∧ pool_conn.isSome = true
  · rw [if_pos h1]
    exact ⟨Or.inl rfl, rfl, rfl, by simp⟩
  · rw [if_neg h1, if_pos hpos]
    by_cases h2 : srv.n_current_conns + srv.n_conn_intents
        ≥ srv.max_routing_connections
    · rw [if_pos h2]
      exact ⟨Or.inl rfl, rfl, rfl, by simp⟩
    · rw [if_neg h2]
      by_cases h3 : srv.n_conn_intents + 1 + srv.n_current_conns
          ≤ srv.max_routing_connections
      · rw [if_pos h3]
        cases new_conn with
        | some cnew =>
          refine ⟨Or.inr (Or.inr rfl), rfl, ?_, fun _ => h3⟩
          show srv.n_conn_intents + 1 - 1 = srv.n_conn_intents
          omega
        | none =>
          refine ⟨Or.inr (Or.inr rfl), rfl, ?_, fun _ => h3⟩
          show srv.n_conn_intents + 1 - 1 = srv.n_conn_intents
          omega
      · rw [if_neg h3]
        refine ⟨Or.inr (Or.inl rfl), rfl, ?_,
          fun hmem => absurd hmem (by
            show GBC.Ev.createConn ∉ [GBC.Ev.addIntent, GBC.Ev.removeIntent]
            decide)⟩
        show srv.n_conn_intents + 1 - 1 = srv.n_conn_intents
        omega

open MaxScale in
/-- C2 witness: with limit 5, one current connection and no pooling, a
successful creation leaves the intent counter where it started. -/
theorem claim_C2_witness :
    (GBC.get_backend_connection ⟨false, false, 5, 1, 0⟩ none (some 7)).srv.n_conn_intents
      = (0 : Int) :=
  (claim_C2 ⟨false, false, 5, 1, 0⟩ none (some 7)
    (GBC.get_backend_connection ⟨false, false, 5, 1, 0⟩ none (some 7))
    (by decide) rfl).2.2.1

open MaxScale in
/-- C5: `RoutingWorker::move_to_conn_pool` pools the connection exactly when
the server's pooling capacity is positive, the DCB is in POLLING state and
not hung up, the protocol connection is established, the session exists and
allows pooling, the server is running, and the target's pool has space.
When pooled, the connection is appended to the pool's entries, the DCB
leaves the regular book-keeping and its handler becomes the pool stub
(`RoutingWorker::DCBHandler`), which reacts to every read, write, error and
hangup event by evicting: `evict_dcb` removes the pool entry and closes the
connection.  In every other case the function returns false and the
connection is not pooled. -/
theorem claim_C5 (nW : Int) (inp : Pool.MoveInput) (conn : Nat)
    (st : Pool.MoveState)
    (hfresh : ∀ p, st.pool = some p → conn ∉ p.contents) :
    ((Pool.move_to_conn_pool nW inp conn st).1 = true ↔
      (inp.persistpoolmax > 0
        ∧ (inp.dcb_state = Pool.DCBState.polling ∧ ¬inp.hanged_up = true
            ∧ inp.established = true ∧ inp.has_session = true
            ∧ inp.can_pool_backends = true ∧ inp.server_running = true)
        ∧ (Pool.effective_pool nW inp st).has_space))
    ∧ ((Pool.move_to_conn_pool nW inp conn st).1 = true →
        (Pool.move_to_conn_pool nW inp conn st).2.pool
            = some { Pool.effective_pool nW inp st with
                     contents := (Pool.effective_pool nW inp st).contents ++ [conn] }
        ∧ (Pool.move_to_conn_pool nW inp conn st).2.handler_is_pool_stub = true
        ∧ (Pool.move_to_conn_pool nW inp conn st).2.dcbs = st.dcbs.erase conn)
    ∧ ((Pool.move_to_conn_pool nW inp conn st).1 = false →
        (Pool.move_to_conn_pool nW inp conn st).2.handler_is_pool_stub
            = st.handler_is_pool_stub
        ∧ (Pool.move_to_conn_pool nW inp conn st).2.dcbs = st.dcbs
        ∧ ∀ p, (Pool.move_to_conn_pool nW inp conn st).2.pool = some p →
            conn ∉ p.contents)
    ∧ (∀ ev : Pool.DcbEvent, Pool.DCBHandler ev = Pool.PoolAction.evict)
    ∧ (∀ (st2 : Pool.MoveState) (p : Pool.ConnectionPool), st2.pool = some p →
        (Pool.evict_dcb conn st2).closed = st2.closed ++ [conn]
        ∧ (Pool.evict_dcb conn st2).pool
            = some { p with contents := p.contents.erase conn }) := by
  have hfresh_eff : conn ∉ (Pool.effective_pool nW inp st).contents := by
    unfold Pool.effective_pool
    cases hp : st.pool with
    | none => simp
    | some p => exact hfresh p hp
  refine ⟨?_, ?_, ?_, fun ev => by cases ev <;> rfl, ?_⟩
  · simp only [Pool.move_to_conn_pool]
    by_cases hcap : inp.persistpoolmax > 0
    · rw [if_pos hcap]
      by_cases hcond : inp.dcb_state = Pool.DCBState.polling ∧ ¬inp.hanged_up = true
          ∧ inp.established = true ∧ inp.has_session = true
          ∧ inp.can_pool_backends = true ∧ inp.server_running = true
      · rw [if_pos hcond]
        by_cases hspace : (Pool.effective_pool nW inp st).has_space
        · rw [if_pos hspace]
          exact iff_of_true rfl ⟨hcap, hcond, hspace⟩
        · rw [if_neg hspace]
          constructor
          · intro hfalse
            exact absurd hfalse (by simp)
          · rintro ⟨_, _, hs⟩
            exact absurd hs hspace
      · rw [if_neg hcond]
        constructor
        · intro hfalse
          exact absurd hfalse (by simp)
        · rintro ⟨_, hc, _⟩
          exact absurd hc hcond
    · rw [if_neg hcap]
      constructor
      · intro hfalse
        exact absurd hfalse (by simp)
      · rintro ⟨hc, _, _⟩
        exact absurd hc hcap
  · simp only [Pool.move_to_conn_pool]
    by_cases hcap : inp.persistpoolmax > 0
    · rw [if_pos hcap]
      by_cases hcond : inp.dcb_state = Pool.DCBState.polling ∧ ¬inp.hanged_up = true
          ∧ inp.established = true ∧ inp.has_session = true
          ∧ inp.can_pool_backends = true ∧ inp.server_running = true
      · rw [if_pos hcond]
        by_cases hspace : (Pool.effective_pool nW inp st).has_space
        · rw [if_pos hspace]
          exact fun _ => ⟨rfl, rfl, rfl⟩
        · rw [if_neg hspace]
          intro hfalse
          exact absurd hfalse (by simp)
      · rw [if_neg hcond]
        intro hfalse
        exact absurd hfalse (by simp)
    · rw [if_neg hcap]
      intro hfalse
      exact absurd hfalse (by simp)
  · simp only [Pool.move_to_conn_pool]
    by_cases hcap : inp.persistpoolmax > 0
    · rw [if_pos hcap]
      by_cases hcond : inp.dcb_state = Pool.DCBState.polling ∧ ¬inp.hanged_up = true
          ∧ inp.established = true ∧ inp.has_session = true
          ∧ inp.can_pool_backends = true ∧ inp.server_running = true
      · rw [if_pos hcond]
        by_cases hspace : (Pool.effective_pool nW inp st).has_space
        · rw [if_pos hspace]
          intro hfalse
          exact absurd hfalse (by simp)
        · rw [if_neg hspace]
          intro _
          refine ⟨rfl, rfl, fun p hp => ?_⟩
          rw [Option.some_inj] at hp
          exact hp ▸ hfresh_eff
      · rw [if_neg hcond]
        intro _
        exact ⟨rfl, rfl, fun p hp => hfresh p hp⟩
    · rw [if_neg hcap]
      intro _
      exact ⟨rfl, rfl, fun p hp => hfresh p hp⟩
  · intro st2 p hp
    unfold Pool.evict_dcb
    rw [hp]
    exact ⟨rfl, rfl⟩

open MaxScale in
/-- C5 witness: a healthy polling connection with capacity for it is pooled. -/
theorem claim_C5_witness :
    (Pool.move_to_conn_pool 2 ⟨4, Pool.DCBState.polling, false, true, true, true, true⟩
      9 ⟨none, [9], false, []⟩).1 = true :=
  (claim_C5 2 ⟨4, Pool.DCBState.polling, false, true, true, true, true⟩ 9
    ⟨none, [9], false, []⟩ (by intro p hp; cases hp)).1.mpr (by decide)

namespace MaxScale.Zomb

theorem delete_zombies_go_spec :
    ∀ (pending destroyed slow : List Zombie),
      delete_zombies_go pending destroyed slow
        = (destroyed ++ pending.filter zombie_can_close,
           slow ++ pending.filter (fun z => !zombie_can_close z)) := by
  intro pending
  induction pending with
  | nil => intro destroyed slow; simp [delete_zombies_go]
  | cons z rest ih =>
    intro destroyed slow
    by_cases hz : zombie_can_close z = true
    · simp [delete_zombies_go, hz, ih]
    · simp only [Bool.not_eq_true] at hz
      simp [delete_zombies_go, hz, ih]

theorem delete_zombies_eq (zombies : List Zombie) :
    delete_zombies zombies
      = (zombies.reverse.filter zombie_can_close,
         zombies.reverse.filter (fun z => !zombie_can_close z)) := by
  unfold delete_zombies
  rw [delete_zombies_go_spec]
  simp

end MaxScale.Zomb

open MaxScale in
/-- C6: in `RoutingWorker::delete_zombies` (run once per event-loop turn), a
client-role zombie is destroyed exactly when every backend connection of its
session reports it can be closed or has been idle since its last read for
more than the 2-second grace window; a non-client zombie is always
destroyed; every zombie that cannot be closed is re-parked on the worker's
zombies list; and each turn fully processes the list: every zombie ends up
either destroyed or re-parked (the two together are a permutation of the
input list). -/
theorem claim_C6 (zs : List Zomb.Zombie) (z : Zomb.Zombie) :
    (z ∈ zs → z.role = Zomb.Role.client →
      (z ∈ (Zomb.delete_zombies zs).1 ↔ z.backends.all Zomb.can_close_dcb = true))
    ∧ (z ∈ zs → z.role ≠ Zomb.Role.client → z ∈ (Zomb.delete_zombies zs).1)
    ∧ (z ∈ zs →
        (z ∈ (Zomb.delete_zombies zs).2 ↔ Zomb.zombie_can_close z = false))
    ∧ ((Zomb.delete_zombies zs).1 ++ (Zomb.delete_zombies zs).2).Perm zs
    ∧ (∀ b : Zomb.BackendConn,
        Zomb.can_close_dcb b = true ↔ 2 < b.idle ∨ b.can_close = true) := by
  rw [Zomb.delete_zombies_eq]
  refine ⟨?_, ?_, ?_, ?_, ?_⟩
  · intro hmem hrole
    constructor
    · intro hdest
      rw [List.mem_filter] at hdest
      have := hdest.2
      rw [Zomb.zombie_can_close, if_pos hrole] at this
      exact this
    · intro hall
      rw [List.mem_filter]
      refine ⟨by simpa using hmem, ?_⟩
      rw [Zomb.zombie_can_close, if_pos hrole]
      exact hall
  · intro hmem hrole
    rw [List.mem_filter]
    refine ⟨by simpa using hmem, ?_⟩
    rw [Zomb.zombie_can_close, if_neg hrole]
  · intro hmem
    constructor
    · intro hslow
      rw [List.mem_filter] at hslow
      simpa using hslow.2
    · intro hno
      rw [List.mem_filter]
      exact ⟨by simpa using hmem, by simp [hno]⟩
  · exact List.Perm.trans (List.filter_append_perm _ zs.reverse) (List.reverse_perm zs)
  · intro b
    simp [Zomb.can_close_dcb]

open MaxScale in
/-- C6 witness: a client zombie with one backend idle for 3 seconds is
destroyed. -/
theorem claim_C6_witness :
    (⟨0, Zomb.Role.client, [⟨3, false⟩]⟩ : Zomb.Zombie)
      ∈ (Zomb.delete_zombies [⟨0, Zomb.Role.client, [⟨3, false⟩]⟩]).1 :=
  ((claim_C6 [⟨0, Zomb.Role.client, [⟨3, false⟩]⟩]
      ⟨0, Zomb.Role.client, [⟨3, false⟩]⟩).1 (by decide) (by decide)).mpr (by decide)

open MaxScale in
/-- C7: the callback installed on every worker by
`RoutingWorker::start_shutdown` (re-armed every 100 ms) first closes all of
the worker's pooled backend connections, then stops the worker's event loop
exactly when its session registry is empty and otherwise kills every
registered session — so this shutdown path never stops a loop while the
worker still has sessions; and `RoutingWorker::shutdown_complete` reports
completion exactly when every worker is in the FINISHED or STOPPED state. -/
theorem claim_C7 (st : Shut.WState) (states : List Shut.RunState) :
    ((Shut.try_shutdown st).pool_conns = []
      ∧ (Shut.try_shutdown st).closed = st.closed ++ st.pool_conns)
    ∧ (st.loop_stopped = false →
        ((Shut.try_shutdown st).loop_stopped = true ↔ st.sessions = []))
    ∧ (st.sessions ≠ [] →
        (Shut.try_shutdown st).loop_stopped = st.loop_stopped
        ∧ ∀ s ∈ (Shut.try_shutdown st).sessions, s.killed = true)
    ∧ (Shut.shutdown_complete states = true ↔
        ∀ s ∈ states,
          s = Shut.RunState.finished ∨ s = Shut.RunState.stopped) := by
  refine ⟨?_, ?_, ?_, ?_⟩
  · simp only [Shut.try_shutdown, Shut.pool_close_all_conns]
    split <;> exact ⟨rfl, rfl⟩
  · intro hstop
    simp only [Shut.try_shutdown, Shut.pool_close_all_conns]
    by_cases hemp : st.sessions = []
    · rw [if_pos (by simpa [List.isEmpty_iff] using hemp)]
      simpa using hemp
    · rw [if_neg (by simpa [List.isEmpty_iff] using hemp)]
      simpa [hstop] using hemp
  · intro hne
    simp only [Shut.try_shutdown, Shut.pool_close_all_conns]
    rw [if_neg (by simpa [List.isEmpty_iff] using hne)]
    refine ⟨rfl, ?_⟩
    intro s hs
    rw [List.mem_map] at hs
    rcases hs with ⟨t, _, ht⟩
    rw [← ht]
  · unfold Shut.shutdown_complete
    rw [List.all_eq_true]
    constructor
    · intro h s hs
      have := h s hs
      simpa using this
    · intro h s hs
      have := h s hs
      simpa using this

open MaxScale in
/-- C7 witness: a worker with one session does not stop its loop; the
session is killed instead, and the pooled connections are closed. -/
theorem claim_C7_witness :
    (Shut.try_shutdown ⟨[⟨5, false⟩], [1, 2], [], false⟩).loop_stopped = false
      ∧ ∀ s ∈ (Shut.try_shutdown ⟨[⟨5, false⟩], [1, 2], [], false⟩).sessions,
          s.killed = true :=
  ((claim_C7 ⟨[⟨5, false⟩], [1, 2], [], false⟩ []).2.2.1 (by decide))

namespace MaxScale.Reb

theorem pick_go_sound :
    ∀ (l : List RSession) (maxAct : Int) (best : Option RSession) (s : RSession),
      pick_go l maxAct best = some s →
      best = some s ∨ (s ∈ l ∧ s.movable = true ∧ maxAct < s.io_activity) := by
  intro l
  induction l with
  | nil => intro maxAct best s h; exact Or.inl h
  | cons t rest ih =>
    intro maxAct best s h
    by_cases hc : t.movable = true ∧ t.io_activity > maxAct
    · rw [pick_go, if_pos hc] at h
      rcases ih t.io_activity (some t) s h with h1 | h2
      · rw [Option.some_inj] at h1
        subst h1
        exact Or.inr ⟨List.mem_cons_self t rest, hc.1, hc.2⟩
      · refine Or.inr ⟨List.mem_cons_of_mem t h2.1, h2.2.1, ?_⟩
        have := h2.2.2
        have := hc.2
        omega
    · rw [pick_go, if_neg hc] at h
      rcases ih maxAct best s h with h1 | h2
      · exact Or.inl h1
      · exact Or.inr ⟨List.mem_cons_of_mem t h2.1, h2.2⟩

theorem pick_go_bound :
    ∀ (l : List RSession) (maxAct : Int) (best : Option RSession) (s : RSession),
      (∀ b, best = some b → maxAct ≤ b.io_activity) →
      pick_go l maxAct best = some s →
      maxAct ≤ s.io_activity
      ∧ ∀ t ∈ l, t.movable = true → t.io_activity ≤ max maxAct s.io_activity := by
  intro l
  induction l with
  | nil =>
    intro maxAct best s hb h
    exact ⟨hb s h, fun t ht => absurd ht (by simp)⟩
  | cons t0 rest ih =>
    intro maxAct best s hb h
    by_cases hc : t0.movable = true ∧ t0.io_activity > maxAct
    · rw [pick_go, if_pos hc] at h
      have hb' : ∀ b, some t0 = some b → t0.io_activity ≤ b.io_activity := by
        intro b hbb
        rw [Option.some_inj] at hbb
        rw [← hbb]
      rcases ih t0.io_activity (some t0) s hb' h with ⟨h1, h2⟩
      have hmax : max t0.io_activity s.io_activity = s.io_activity :=
        max_eq_right h1
      constructor
      · have := hc.2
        omega
      · intro t ht hmov
        rcases List.mem_cons.mp ht with h3 | h3
        · subst h3
          exact le_trans h1 (le_max_right maxAct s.io_activity)
        · have := h2 t h3 hmov
          rw [hmax] at this
          exact le_trans this (le_max_right maxAct s.io_activity)
    · rw [pick_go, if_neg hc] at h
      rcases ih maxAct best s hb h with ⟨h1, h2⟩
      refine ⟨h1, ?_⟩
      intro t ht hmov
      rcases List.mem_cons.mp ht with h3 | h3
      · subst h3
        have hle : t.io_activity ≤ maxAct := by
          by_contra hgt
          exact hc ⟨hmov, by omega⟩
        exact le_trans hle (le_max_left maxAct s.io_activity)
      · exact h2 t h3 hmov

theorem pick_most_active_spec (sessions : List RSession) (s : RSession)
    (h : pick_most_active sessions = some s) :
    s ∈ sessions ∧ s.movable = true ∧ 0 < s.io_activity
    ∧ ∀ t ∈ sessions, t.movable = true → t.io_activity ≤ s.io_activity := by
  rcases pick_go_sound sessions 0 none s h with h1 | h2
  · exact absurd h1 (by simp)
  · rcases pick_go_bound sessions 0 none s (fun b hb => by cases hb) h with ⟨_, h3⟩
    refine ⟨h2.1, h2.2.1, h2.2.2, ?_⟩
    intro t ht hmov
    have := h3 t ht hmov
    have hmax : max (0 : Int) s.io_activity = s.io_activity :=
      max_eq_right (le_of_lt h2.2.2)
    rw [hmax] at this
    exact this

end MaxScale.Reb

open MaxScale in
/-- C8 counterexample: a worker whose only session is movable but has zero
I/O activity moves nothing when asked to move one session — although that
session is movable and (trivially) the one with the highest I/O activity —
because the selection loop starts its running maximum at 0 and only a
strictly greater activity is recorded; the claim as frozen says the
highest-activity movable session is moved. -/
theorem claim_C8_counterexample :
    Reb.rebalance_moved 1 [⟨1, true, 0⟩] = []
    ∧ (⟨1, true, 0⟩ : Reb.RSession).movable = true
    ∧ ∀ t ∈ [(⟨1, true, 0⟩ : Reb.RSession)],
        t.io_activity ≤ (⟨1, true, 0⟩ : Reb.RSession).io_activity := by
  decide

open MaxScale in
/-- C8 (amended): when rebalancing moves one session, the source worker
selects among its movable sessions one with the highest I/O activity and
moves it only when that activity is strictly positive; at most one session
is moved; and a non-movable session is never moved (for any requested
count), so it stays on its worker — the source logs an informational
message in that case rather than incrementing a counter. -/
theorem claim_C8 (sessions : List Reb.RSession) (s : Reb.RSession) (n : Int) :
    (s ∈ Reb.rebalance_moved n sessions → s.movable = true ∧ s ∈ sessions)
    ∧ (Reb.pick_most_active sessions = some s →
        s ∈ sessions ∧ s.movable = true ∧ 0 < s.io_activity
        ∧ ∀ t ∈ sessions, t.movable = true → t.io_activity ≤ s.io_activity)
    ∧ ((∀ t ∈ sessions, t.movable = true → t.io_activity ≤ 0) →
        Reb.rebalance_moved 1 sessions = [])
    ∧ (Reb.rebalance_moved 1 sessions = []
        ∨ ∃ u, Reb.rebalance_moved 1 sessions = [u]) := by
  refine ⟨?_, Reb.pick_most_active_spec sessions s, ?_, ?_⟩
  · intro hmem
    unfold Reb.rebalance_moved at hmem
    by_cases h1 : n = 1
    · rw [if_pos h1] at hmem
      cases hpick : Reb.pick_most_active sessions with
      | none => rw [hpick] at hmem; exact absurd hmem (by simp)
      | some u =>
        rw [hpick] at hmem
        rw [List.mem_singleton] at hmem
        subst hmem
        have := Reb.pick_most_active_spec sessions s hpick
        exact ⟨this.2.1, this.1⟩
    · rw [if_neg h1] at hmem
      by_cases h2 : n > 1
      · rw [if_pos h2] at hmem
        unfold Reb.take_movable at hmem
        have hmem2 := List.take_subset _ _ hmem
        rw [List.mem_filter] at hmem2
        exact ⟨hmem2.2, hmem2.1⟩
      · rw [if_neg h2] at hmem
        exact absurd hmem (by simp)
  · intro hlow
    cases hpick : Reb.pick_most_active sessions with
    | none => simp [Reb.rebalance_moved, hpick]
    | some u =>
      have := Reb.pick_most_active_spec sessions u hpick
      have h1 := hlow u this.1 this.2.1
      have h2 := this.2.2.1
      omega
  · cases hpick : Reb.pick_most_active sessions with
    | none => exact Or.inl (by simp [Reb.rebalance_moved, hpick])
    | some u => exact Or.inr ⟨u, by simp [Reb.rebalance_moved, hpick]⟩

open MaxScale in
/-- C8 witness: of two sessions — a non-movable one with high activity and a
movable one with positive activity — the movable one is selected, and it
dominates every movable session's activity. -/
theorem claim_C8_witness :
    (⟨1, true, 3⟩ : Reb.RSession) ∈ [(⟨2, false, 9⟩ : Reb.RSession), ⟨1, true, 3⟩]
    ∧ (⟨1, true, 3⟩ : Reb.RSession).movable = true
    ∧ (0 : Int) < (⟨1, true, 3⟩ : Reb.RSession).io_activity
    ∧ ∀ t ∈ [(⟨2, false, 9⟩ : Reb.RSession), ⟨1, true, 3⟩],
        t.movable = true →
          t.io_activity ≤ (⟨1, true, 3⟩ : Reb.RSession).io_activity :=
  (claim_C8 [⟨2, false, 9⟩, ⟨1, true, 3⟩] ⟨1, true, 3⟩ 1).2.1 (by decide)

namespace MaxScale.CPool

theorem scan_skip_low (score : Nat → Nat) :
    ∀ (l : List Nat) (best : Option Nat) (br : Nat),
      (∀ d ∈ l, score d ≤ br) → scan score l best br = (best, br) := by
  intro l
  induction l with
  | nil => intro best br _; rfl
  | cons e rest ih =>
    intro best br h
    have hle : ¬(score e > br) := by
      have := h e (List.mem_cons_self e rest)
      omega
    rw [scan, if_neg hle]
    exact ih best br (fun d hd => h d (List.mem_cons_of_mem e hd))

theorem scan_last_wins (score : Nat → Nat) (c : Nat) :
    ∀ (l : List Nat) (best : Option Nat) (br : Nat),
      (∀ d ∈ l, score d < score c) → br < score c →
      score c ≤ OPTIMAL_REUSE →
      (scan score (l ++ [c]) best br).1 = some c := by
  intro l
  induction l with
  | nil =>
    intro best br _ hbr _
    rw [List.nil_append, scan, if_pos hbr]
    by_cases hopt : score c = OPTIMAL_REUSE
    · rw [if_pos hopt]
    · rw [if_neg hopt]
      rfl
  | cons d rest ih =>
    intro best br hl hbr hcopt
    have hd := hl d (List.mem_cons_self d rest)
    have hrest : ∀ e ∈ rest, score e < score c :=
      fun e he => hl e (List.mem_cons_of_mem d he)
    rw [List.cons_append, scan]
    by_cases hgt : score d > br
    · have hne : score d ≠ OPTIMAL_REUSE := by omega
      rw [if_pos hgt, if_neg hne]
      exact ih (some d) (score d) hrest hd hcopt
    · rw [if_neg hgt]
      exact ih best br hrest hbr hcopt

theorem scan_first_optimal (score : Nat → Nat) (copt : Nat) (l₂ : List Nat) :
    ∀ (l₁ : List Nat) (best : Option Nat) (br : Nat),
      (∀ d ∈ l₁, score d < OPTIMAL_REUSE) → br < OPTIMAL_REUSE →
      score copt = OPTIMAL_REUSE →
      (scan score (l₁ ++ copt :: l₂) best br).1 = some copt := by
  intro l₁
  induction l₁ with
  | nil =>
    intro best br _ hbr hopt
    rw [List.nil_append, scan, if_pos (by omega), if_pos hopt]
  | cons d rest ih =>
    intro best br hl hbr hopt
    have hd := hl d (List.mem_cons_self d rest)
    have hrest : ∀ e ∈ rest, score e < OPTIMAL_REUSE :=
      fun e he => hl e (List.mem_cons_of_mem d he)
    rw [List.cons_append, scan]
    by_cases hgt : score d > br
    · have hne : score d ≠ OPTIMAL_REUSE := by omega
      rw [if_pos hgt, if_neg hne]
      exact ih (some d) (score d) hrest hd hopt
    · rw [if_neg hgt]
      exact ih best br hrest hbr hopt

theorem get_connection_found (score : Nat → Nat) (q : ConnectionPool) (x : Nat)
    (h : (scan score q.contents none REUSE_NOT_POSSIBLE).1 = some x) :
    get_connection score q
      = (some x,
         { contents := q.contents.erase x
           stats := { q.stats with times_found := q.stats.times_found + 1 } }) := by
  simp only [get_connection]
  rw [h]

theorem get_connection_empty (score : Nat → Nat) (q : ConnectionPool)
    (h : (scan score q.contents none REUSE_NOT_POSSIBLE).1 = none) :
    get_connection score q
      = (none,
         { q with stats := { q.stats with times_empty := q.stats.times_empty + 1 } }) := by
  simp only [get_connection]
  rw [h]

end MaxScale.CPool

open MaxScale in
/-- C9 counterexample: release connection 1 into a pool that already holds
connection 0, with both scoring 5 for the session (so 1's score is above
NOT_POSSIBLE and no other entry scores higher).  The immediately following
acquire returns entry 0 — the first one the scan visits — not the released
connection 1, because only a strictly greater score replaces the running
best; the claim as frozen predicts the released connection is returned. -/
theorem claim_C9_counterexample :
    CPool.REUSE_NOT_POSSIBLE < (fun _ => 5 : Nat → Nat) 1
    ∧ (∀ d ∈ ([0] : List Nat),
        ¬((fun _ => 5 : Nat → Nat) 1 < (fun _ => 5 : Nat → Nat) d))
    ∧ (CPool.get_connection (fun _ => 5)
        (CPool.add_connection 1 ⟨[0], ⟨1, 0, 0⟩⟩)).1 = some 0
    ∧ (some 0 : Option Nat) ≠ some 1 := by
  refine ⟨by decide, by decide, ?_, by decide⟩
  rfl

open MaxScale in
/-- C9 (amended): if a backend connection `c` is released into the pool
(`add_connection`, the pooling step of `move_to_conn_pool`) and an acquire
for the same server follows with a session for which `c`'s reuse score is
above NOT_POSSIBLE and *strictly* above every other entry's score, then the
acquire returns `c`, removes its entry (restoring the previous contents),
and increments `times_found`; an acquire finding no entry above NOT_POSSIBLE
returns nothing and increments `times_empty`; and an entry scoring OPTIMAL
short-circuits the search: the first such entry is returned no matter what
follows it. -/
theorem claim_C9 (score : Nat → Nat) (p : CPool.ConnectionPool) (c : Nat)
    (hbound : ∀ e, score e ≤ CPool.OPTIMAL_REUSE)
    (hpos : CPool.REUSE_NOT_POSSIBLE < score c)
    (hbest : ∀ d ∈ p.contents, score d < score c) :
    ((CPool.get_connection score (CPool.add_connection c p)).1 = some c
      ∧ (CPool.get_connection score (CPool.add_connection c p)).2.contents
          = p.contents
      ∧ (CPool.get_connection score (CPool.add_connection c p)).2.stats.times_found
          = p.stats.times_found + 1)
    ∧ (∀ q : CPool.ConnectionPool,
        (∀ d ∈ q.contents, score d = CPool.REUSE_NOT_POSSIBLE) →
        (CPool.get_connection score q).1 = none
        ∧ (CPool.get_connection score q).2.contents = q.contents
        ∧ (CPool.get_connection score q).2.stats.times_empty
            = q.stats.times_empty + 1)
    ∧ (∀ (l₁ l₂ : List Nat) (q : CPool.ConnectionPool) (copt : Nat),
        q.contents = l₁ ++ copt :: l₂ →
        score copt = CPool.OPTIMAL_REUSE →
        (∀ d ∈ l₁, score d < CPool.OPTIMAL_REUSE) →
        (CPool.get_connection score q).1 = some copt) := by
  refine ⟨?_, ?_, ?_⟩
  · have hnotmem : c ∉ p.contents := by
      intro hmem
      exact absurd (hbest c hmem) (lt_irrefl _)
    have hscan : (CPool.scan score ((CPool.add_connection c p).contents)
        none CPool.REUSE_NOT_POSSIBLE).1 = some c := by
      show (CPool.scan score (p.contents ++ [c]) none CPool.REUSE_NOT_POSSIBLE).1
        = some c
      exact CPool.scan_last_wins score c p.contents none CPool.REUSE_NOT_POSSIBLE
        hbest hpos (hbound c)
    rw [CPool.get_connection_found score _ c hscan]
    refine ⟨rfl, ?_, rfl⟩
    show (p.contents ++ [c]).erase c = p.contents
    rw [List.erase_append_right [c] hnotmem, List.erase_cons_head, List.append_nil]
  · intro q hq
    have hscan : (CPool.scan score q.contents none CPool.REUSE_NOT_POSSIBLE).1
        = none := by
      have := CPool.scan_skip_low score q.contents none CPool.REUSE_NOT_POSSIBLE
        (fun d hd => le_of_eq (hq d hd))
      rw [this]
    rw [CPool.get_connection_empty score q hscan]
    exact ⟨rfl, rfl, rfl⟩
  · intro l₁ l₂ q copt hq hopt hlow
    have hscan : (CPool.scan score q.contents none CPool.REUSE_NOT_POSSIBLE).1
        = some copt := by
      rw [hq]
      exact CPool.scan_first_optimal score copt l₂ l₁ none CPool.REUSE_NOT_POSSIBLE
        hlow (by unfold CPool.REUSE_NOT_POSSIBLE CPool.OPTIMAL_REUSE; omega) hopt
    rw [CPool.get_connection_found score q copt hscan]

open MaxScale in
/-- C9 witness: releasing connection 1 into an empty pool and acquiring with
a session that scores it 5 returns connection 1. -/
theorem claim_C9_witness :
    (CPool.get_connection (fun _ => 5)
      (CPool.add_connection 1 ⟨[], ⟨0, 0, 0⟩⟩)).1 = some 1 :=
  ((claim_C9 (fun _ => 5) ⟨[], ⟨0, 0, 0⟩⟩ 1
    (fun e => by show (5 : Nat) ≤ CPool.OPTIMAL_REUSE; decide) (by decide)
    (fun d hd => absurd hd (List.not_mem_nil d))).1).1

open MaxScale in
/-- C10: in the aggregate of `RoutingWorker::get_statistics` the `n_fds`
field equals the maximum of the per-worker fd counts, not their sum — the
source assigns it three times in succession (sum, then minimum, then
maximum) and only the last assignment takes effect — while reads, writes,
errors, hangups, accepts and polls are true sums across workers; on the
two-worker example with fd counts 1 and 2 the aggregate holds 2 where the
sum would be 3. -/
theorem claim_C10 (s : List WStat.WStats) :
    ((WStat.get_statistics s).n_fds = WStat.max_elem s (fun w => w.n_fds))
    ∧ ((WStat.get_statistics s).n_read = WStat.sumBy s (fun w => w.n_read))
    ∧ ((WStat.get_statistics s).n_write = WStat.sumBy s (fun w => w.n_write))
    ∧ ((WStat.get_statistics s).n_error = WStat.sumBy s (fun w => w.n_error))
    ∧ ((WStat.get_statistics s).n_hup = WStat.sumBy s (fun w => w.n_hup))
    ∧ ((WStat.get_statistics s).n_accept = WStat.sumBy s (fun w => w.n_accept))
    ∧ ((WStat.get_statistics s).n_polls = WStat.sumBy s (fun w => w.n_polls))
    ∧ ((WStat.get_statistics
          [{ WStat.zeroStats with n_fds := 1 },
           { WStat.zeroStats with n_fds := 2 }]).n_fds = 2
        ∧ WStat.sumBy
            [{ WStat.zeroStats with n_fds := 1 },
             { WStat.zeroStats with n_fds := 2 }] (fun w => w.n_fds) = 3) := by
  refine ⟨rfl, rfl, rfl, rfl, rfl, rfl, rfl, by decide, by decide⟩
